import Mathlib

set_option maxHeartbeats 1000000

/-!
Verification of the maze-generation engine and the single-button navigation
state machine of `ascii-maze-game.py`.

The Python grid `grid[y][x]` holds `1` for walls and `0` for floors; we embed
it as the `Finset` of floor cells (a cell is floor iff it is a member), with
explicit bounds stored alongside.  `random.choice` is embedded as an oracle
`choices : Nat -> Nat` supplying one index per carve step; quantifying over
all oracles covers every random stream.  Wall-clock timestamps (`time()`) are
embedded as rational parameters passed to the handlers.  The `while` loops of
`_generate` and `place_treasure_farthest_from` are embedded with an explicit
fuel argument; a fuel bound derived from the grid area is proved sufficient
for the loops to reach their natural exit (empty stack / empty queue).
-/

abbrev Cell := ℤ × ℤ

structure MazeS where
  w : ℤ
  h : ℤ
  floors : Finset Cell
  deriving DecidableEq

/-- `Maze.__init__`: `self.w = width_cells if width_cells % 2 == 1 else width_cells - 1`. -/
def oddify (n : ℤ) : ℤ := if n % 2 = 1 then n else n - 1

/-- The two-step deltas of `Maze._neighbors`, in source order. -/
def genDeltas : List Cell := [(0, -2), (2, 0), (0, 2), (-2, 0)]

/-- `Maze._neighbors`: two-step neighbours strictly inside the outer border. -/
def mazeNeighbors (w h : ℤ) (c : Cell) : List Cell :=
  (genDeltas.map (fun d => (c.1 + d.1, c.2 + d.2))).filter
    (fun n => decide (0 < n.1 ∧ n.1 < w - 1 ∧ 0 < n.2 ∧ n.2 < h - 1))

/-- The loop body of `Maze._generate`, with explicit fuel.  The state is the
floor set together with the stack; `choices` supplies the index picked by
`random.choice` at each carve (taken modulo the number of candidates). -/
def genLoopAux (w h : ℤ) :
    ℕ → (ℕ → ℕ) → Finset Cell → List Cell → Finset Cell × List Cell
  | 0, _, floors, stack => (floors, stack)
  | fuel + 1, choices, floors, stack =>
    match stack with
    | [] => (floors, [])
    | c :: rest =>
      let neigh := (mazeNeighbors w h c).filter (fun n => decide (n ∉ floors))
      if neigh = [] then
        genLoopAux w h fuel choices floors rest
      else
        let j := choices 0 % neigh.length
        let n := neigh.getD j (0, 0)
        let mid := (Int.fdiv (c.1 + n.1) 2, Int.fdiv (c.2 + n.2) 2)
        genLoopAux w h fuel (fun i => choices (i + 1))
          (insert n (insert mid floors)) (n :: c :: rest)

/-- Fuel that always suffices for `genLoopAux` to empty its stack. -/
def genFuel (w h : ℤ) : ℕ := 2 * (w.toNat * h.toNat) + 2

/-- `Maze._generate` run from the initial state (`stack = [(1,1)]`,
`grid[1][1] = 0`). -/
def mazeGenRun (w h : ℤ) (choices : ℕ → ℕ) : Finset Cell × List Cell :=
  genLoopAux w h (genFuel w h) choices {(1, 1)} [(1, 1)]

/-- `Maze.__init__`.  Writing `grid[1][1] = 0` raises `IndexError` in Python
unless both dimensions exceed 1; that failure is embedded as `Except.error`. -/
def mazeInit (width height : ℤ) (choices : ℕ → ℕ) : Except String MazeS :=
  let w := oddify width
  let h := oddify height
  if 1 < w ∧ 1 < h then
    Except.ok ⟨w, h, (mazeGenRun w h choices).1⟩
  else
    Except.error "IndexError"

/-- The in-bounds cells of a `w × h` grid. -/
def mazeBox (w h : ℤ) : Finset Cell := Finset.Ico 0 w ×ˢ Finset.Ico 0 h

/-- `Maze.is_floor`. -/
def isFloor (m : MazeS) (x y : ℤ) : Bool :=
  if 0 ≤ x ∧ x < m.w ∧ 0 ≤ y ∧ y < m.h then decide ((x, y) ∈ m.floors) else false

/-- The one-step deltas of the BFS in `place_treasure_farthest_from`,
in source order `(+x, -x, +y, -y)`. -/
def bfsDeltas : List Cell := [(1, 0), (-1, 0), (0, 1), (0, -1)]

/-- The inner `for dx,dy in ...` loop of the BFS: enqueue and mark each
in-bounds, unseen floor neighbour, in delta order. -/
def bfsExpand (m : MazeS) (x y : ℤ) (d : ℕ) :
    List Cell → List (Cell × ℕ) → Finset Cell → List (Cell × ℕ) × Finset Cell
  | [], q, seen => (q, seen)
  | δ :: rest, q, seen =>
    let n : Cell := (x + δ.1, y + δ.2)
    if 0 ≤ n.1 ∧ n.1 < m.w ∧ 0 ≤ n.2 ∧ n.2 < m.h ∧ n ∉ seen ∧ n ∈ m.floors then
      bfsExpand m x y d rest (q ++ [(n, d + 1)]) (insert n seen)
    else
      bfsExpand m x y d rest q seen

/-- BFS loop state.  `trace` is ghost instrumentation recording the popped
`(cell, depth)` pairs in pop order; the source keeps only `queue`, `seen`
and `far`. -/
structure BfsState where
  queue : List (Cell × ℕ)
  seen : Finset Cell
  far : Cell × ℕ
  trace : List (Cell × ℕ)
  deriving DecidableEq

/-- The `while q:` loop of `place_treasure_farthest_from`, with explicit
fuel. -/
def bfsAux (m : MazeS) : ℕ → BfsState → BfsState
  | 0, st => st
  | fuel + 1, st =>
    match st.queue with
    | [] => st
    | (p, d) :: rest =>
      let far' := if d > st.far.2 then (p, d) else st.far
      let qs := bfsExpand m p.1 p.2 d bfsDeltas rest st.seen
      bfsAux m fuel ⟨qs.1, qs.2, far', st.trace ++ [(p, d)]⟩

/-- Fuel that always suffices for `bfsAux` to empty its queue. -/
def bfsFuel (m : MazeS) : ℕ := 2 * (m.w.toNat * m.h.toNat) + 2

def bfsInit (sx sy : ℤ) : BfsState :=
  ⟨[((sx, sy), 0)], {(sx, sy)}, ((sx, sy), 0), []⟩

def bfsRun (m : MazeS) (sx sy : ℤ) : BfsState :=
  bfsAux m (bfsFuel m) (bfsInit sx sy)

/-- `Maze.place_treasure_farthest_from`: returns `(far[0], far[1])`. -/
def place_treasure_farthest_from (m : MazeS) (sx sy : ℤ) : Cell :=
  (bfsRun m sx sy).far.1

/-- One BFS adjacency step: `q` is an in-bounds floor cell one unit from `p`
(the guard of the BFS inner loop). -/
def floorAdj (w h : ℤ) (floors : Finset Cell) (p q : Cell) : Prop :=
  (∃ δ ∈ bfsDeltas, q = (p.1 + δ.1, p.2 + δ.2)) ∧
    0 ≤ q.1 ∧ q.1 < w ∧ 0 ≤ q.2 ∧ q.2 < h ∧ q ∈ floors

/-- Reachability through 4-connected in-bounds floor cells. -/
def ReachF (w h : ℤ) (floors : Finset Cell) (p q : Cell) : Prop :=
  Relation.ReflTransGen (floorAdj w h floors) p q

/-! ### Navigation state machine (`Game`) -/

structure GState where
  maze : MazeS
  player : Cell
  treasure : Cell
  startTime : Option ℚ
  currentDir : Option Cell
  running : Bool
  menuActive : Bool
  menuOptions : List String
  menuSelected : ℕ
  pressTime : Option ℚ
  holding : Bool
  deriving DecidableEq

/-- `LONG_PRESS_FOR_CYCLE = 0.5`. -/
def longPressForCycle : ℚ := 1 / 2

/-- The fixed absolute order `Up, Right, Down, Left` of
`Game._available_directions`. -/
def dirOrder : List Cell := [(0, -1), (1, 0), (0, 1), (-1, 0)]

/-- `Game._available_directions`. -/
def availableDirections (m : MazeS) (x y : ℤ) : List Cell :=
  dirOrder.filter (fun d => isFloor m (x + d.1) (y + d.2))

/-- `Game._dir_name`. -/
def dirName (d : Cell) : String :=
  if d.1 = 1 then "Right"
  else if d.1 = -1 then "Left"
  else if d.2 = 1 then "Down"
  else if d.2 = -1 then "Up"
  else "?"

/-- `Game._open_menu`. -/
def openMenu (s : GState) (neighbors : List Cell) : GState :=
  { s with menuActive := true, menuOptions := neighbors.map dirName, menuSelected := 0 }

/-- `Game._confirm_menu_selection`.  `now` stands for the `time()` sample
taken when the elapsed-time clock starts.  The subscript
`menu_options[menu_selected]` is embedded with `List.getD`; the menu
invariant (claim C8) keeps the index in range on reachable states. -/
def confirmMenuSelection (s : GState) (now : ℚ) : GState :=
  if ¬ s.menuActive = true ∨ s.menuOptions = [] then s
  else
    let choiceName := s.menuOptions.getD s.menuSelected ""
    match (availableDirections s.maze s.player.1 s.player.2).find?
        (fun d => dirName d == choiceName) with
    | some d =>
      { s with currentDir := some d, running := true,
               startTime := some (s.startTime.getD now),
               menuActive := false, menuOptions := [], menuSelected := 0 }
    | none =>
      { s with menuActive := false, menuOptions := [], menuSelected := 0 }

/-- `Game._auto_step`. -/
def autoStep (s : GState) : GState :=
  match s.currentDir with
  | none => s
  | some d =>
    let nx := s.player.1 + d.1
    let ny := s.player.2 + d.2
    if isFloor s.maze nx ny then
      let s1 := { s with player := (nx, ny) }
      let neighbors := availableDirections s1.maze nx ny
      if 1 < neighbors.length then
        openMenu { s1 with running := false } neighbors
      else if d ∉ neighbors then
        if neighbors ≠ [] then openMenu { s1 with running := false } neighbors
        else { s1 with running := false, currentDir := none }
      else s1
    else
      let neighbors := availableDirections s.maze s.player.1 s.player.2
      if neighbors ≠ [] then openMenu { s with running := false } neighbors
      else { s with running := false, currentDir := none }

/-- The short-press branch of `Game._on_button_release` (duration below the
long-press threshold). -/
def shortPressNav (s : GState) (now : ℚ) : GState :=
  if s.menuActive then confirmMenuSelection s now
  else
    let neighbors := availableDirections s.maze s.player.1 s.player.2
    match s.currentDir with
    | some d =>
      if d ∈ neighbors ∧ neighbors.length = 1 then s
      else if 1 < neighbors.length ∨ d ∉ neighbors then openMenu s neighbors
      else s
    | none =>
      if 1 < neighbors.length then openMenu s neighbors else s

/-- `Game._on_button_press`: record the press time (a `time()` sample). -/
def onButtonPress (s : GState) (t : ℚ) : GState :=
  { s with pressTime := some t, holding := true }

/-- `press_duration = time() - (self._press_time or time())`: `t1` is the
first `time()` sample, `t2` the second (used when `_press_time` is `None` or
the falsy `0.0`). -/
def pressDuration (s : GState) (t1 t2 : ℚ) : ℚ :=
  t1 - (match s.pressTime with
        | some p => if p = 0 then t2 else p
        | none => t2)

/-- `Game._on_button_release`.  `t3` is the `time()` sample a confirmation
would record as the clock start. -/
def onButtonRelease (s : GState) (t1 t2 t3 : ℚ) : GState :=
  let dur := pressDuration s t1 t2
  let s1 := { s with holding := false }
  if dur < longPressForCycle then shortPressNav s1 t3 else s1

/-- One pass of the `while` body of `Game._loop`: menu branch renders only;
the moving branch auto-steps and then applies the win check, which
overrides any menu the step opened. -/
def loopTick (s : GState) : GState :=
  if s.menuActive then s
  else if s.running = true ∧ s.currentDir.isSome then
    let s1 := autoStep s
    if s1.player = s1.treasure then
      { s1 with running := false, menuActive := true,
                menuOptions := ["Replay", "Exit"], menuSelected := 0 }
    else s1
  else s

/-- `Game.__init__` navigation-state fields (maze and treasure fixed,
everything else at rest). -/
def initState (m : MazeS) : GState :=
  { maze := m, player := (1, 1), treasure := place_treasure_farthest_from m 1 1,
    startTime := none, currentDir := none, running := false,
    menuActive := false, menuOptions := [], menuSelected := 0,
    pressTime := none, holding := false }

/-- The events that drive the navigation state: a button press, a button
release (with its `time()` samples), and one game-loop tick. -/
inductive GStep : GState → GState → Prop where
  | press (s : GState) (t : ℚ) : GStep s (onButtonPress s t)
  | release (s : GState) (t1 t2 t3 : ℚ) : GStep s (onButtonRelease s t1 t2 t3)
  | tick (s : GState) : GStep s (loopTick s)

/-- States reachable from the initial state by navigation events. -/
def ReachableNav (m : MazeS) (s : GState) : Prop :=
  Relation.ReflTransGen GStep (initState m) s

/-! ### Concrete states used by the witnesses -/

def ch0 : ℕ → ℕ := fun _ => 0

def mzTrivial : MazeS := ⟨3, 3, {(1, 1)}⟩

def mzCorridor : MazeS := ⟨5, 5, {(1, 1), (1, 2), (1, 3)}⟩

def mzForkW : MazeS := ⟨5, 5, {(1, 1), (2, 1), (3, 1), (2, 2)}⟩

def gsFork : GState :=
  { maze := mzForkW, player := (1, 1), treasure := (3, 1), startTime := none,
    currentDir := some (1, 0), running := true, menuActive := false,
    menuOptions := [], menuSelected := 0, pressTime := none, holding := false }

def gsWin : GState :=
  { maze := mzCorridor, player := (1, 1), treasure := (1, 2), startTime := none,
    currentDir := some (0, 1), running := true, menuActive := false,
    menuOptions := [], menuSelected := 0, pressTime := none, holding := false }

def gsCorr : GState :=
  { maze := mzCorridor, player := (1, 1), treasure := (1, 3), startTime := none,
    currentDir := some (0, 1), running := true, menuActive := false,
    menuOptions := [], menuSelected := 0, pressTime := some 1, holding := true }

def gsStale : GState :=
  { maze := mzTrivial, player := (1, 1), treasure := (1, 1), startTime := none,
    currentDir := none, running := false, menuActive := true,
    menuOptions := ["Up"], menuSelected := 0, pressTime := none, holding := false }

/-! ### Helper lemmas on `autoStep` -/

theorem autoStep_player_of_floor (s : GState) (d : Cell)
    (hd : s.currentDir = some d)
    (hf : isFloor s.maze (s.player.1 + d.1) (s.player.2 + d.2) = true) :
    (autoStep s).player = (s.player.1 + d.1, s.player.2 + d.2) := by
  unfold autoStep
  rw [hd]
  simp only [hf, if_true, openMenu]
  split
  all_goals try split
  all_goals try split
  all_goals simp [openMenu]

theorem autoStep_treasure (s : GState) : (autoStep s).treasure = s.treasure := by
  unfold autoStep
  cases h : s.currentDir with
  | none => rfl
  | some d =>
    simp only
    split
    all_goals try split
    all_goals try split
    all_goals try split
    all_goals simp [openMenu]

/-- C4: an `AutoStep` that moves the player onto a cell with more than one
available direction stops movement and opens a non-empty menu whose options
are exactly the names of the directions available at the new cell, listed in
the canonical order `Up, Right, Down, Left` (the order of `dirOrder` that
`availableDirections` filters), with selection index 0. -/
theorem autoStep_fork_forces_menu (s : GState) (d : Cell)
    (hd : s.currentDir = some d)
    (hf : isFloor s.maze (s.player.1 + d.1) (s.player.2 + d.2) = true)
    (hn : 1 < (availableDirections s.maze (s.player.1 + d.1) (s.player.2 + d.2)).length) :
    (autoStep s).running = false ∧ (autoStep s).menuActive = true ∧
    (autoStep s).menuOptions =
      (availableDirections s.maze (s.player.1 + d.1) (s.player.2 + d.2)).map dirName ∧
    (autoStep s).menuOptions ≠ [] ∧ (autoStep s).menuSelected = 0 ∧
    (autoStep s).player = (s.player.1 + d.1, s.player.2 + d.2) := by
  have hne : (availableDirections s.maze (s.player.1 + d.1) (s.player.2 + d.2)).map dirName ≠ [] := by
    intro hcon
    rw [List.map_eq_nil_iff] at hcon
    rw [hcon] at hn
    simp at hn
  unfold autoStep
  rw [hd]
  simp only [hf, if_true]
  rw [if_pos hn]
  simp [openMenu, hne]

/-- C4 witness: stepping right from `(1,1)` in `mzForkW` lands on the
three-way fork `(2,1)`. -/
theorem autoStep_fork_forces_menu_witness :
    (autoStep gsFork).running = false ∧ (autoStep gsFork).menuActive = true ∧
    (autoStep gsFork).menuOptions =
      (availableDirections gsFork.maze (gsFork.player.1 + 1) (gsFork.player.2 + 0)).map dirName ∧
    (autoStep gsFork).menuOptions ≠ [] ∧ (autoStep gsFork).menuSelected = 0 ∧
    (autoStep gsFork).player = (gsFork.player.1 + 1, gsFork.player.2 + 0) :=
  autoStep_fork_forces_menu gsFork (1, 0) (by decide) (by decide) (by decide)

/-- C5: a game-loop tick whose `AutoStep` moves the player onto the treasure
cell ends with movement stopped and the terminal menu `["Replay", "Exit"]`
open at index 0, overriding any direction menu the step itself opened. -/
theorem loopTick_win_takes_precedence (s : GState) (d : Cell)
    (hm : s.menuActive = false) (hr : s.running = true) (hd : s.currentDir = some d)
    (hf : isFloor s.maze (s.player.1 + d.1) (s.player.2 + d.2) = true)
    (ht : (s.player.1 + d.1, s.player.2 + d.2) = s.treasure) :
    (loopTick s).running = false ∧ (loopTick s).menuActive = true ∧
    (loopTick s).menuOptions = ["Replay", "Exit"] ∧ (loopTick s).menuSelected = 0 := by
  have hp : (autoStep s).player = (autoStep s).treasure := by
    rw [autoStep_player_of_floor s d hd hf, autoStep_treasure, ht]
  unfold loopTick
  rw [hm]
  simp only [Bool.false_eq_true, if_false, hr, hd, Option.isSome_some, and_self, if_true,
    if_pos hp]

/-- C5 witness: in the corridor maze `mzCorridor` the step down from `(1,1)`
lands on the treasure `(1,2)`. -/
theorem loopTick_win_takes_precedence_witness :
    (loopTick gsWin).running = false ∧ (loopTick gsWin).menuActive = true ∧
    (loopTick gsWin).menuOptions = ["Replay", "Exit"] ∧ (loopTick gsWin).menuSelected = 0 :=
  loopTick_win_takes_precedence gsWin (0, 1) (by decide) (by decide) (by decide)
    (by decide) (by decide)

/-- C9: with no menu active, when the player's cell has exactly one available
direction and it equals `current_direction`, a short press (duration below
the long-press threshold) leaves the player, the direction, the movement
flag and the menu untouched. -/
theorem shortPress_single_corridor_noop (s : GState) (t1 t2 t3 : ℚ) (d : Cell)
    (hm : s.menuActive = false) (hd : s.currentDir = some d)
    (ha : availableDirections s.maze s.player.1 s.player.2 = [d])
    (hs : pressDuration s t1 t2 < longPressForCycle) :
    (onButtonRelease s t1 t2 t3).player = s.player ∧
    (onButtonRelease s t1 t2 t3).currentDir = s.currentDir ∧
    (onButtonRelease s t1 t2 t3).running = s.running ∧
    (onButtonRelease s t1 t2 t3).menuActive = false ∧
    (onButtonRelease s t1 t2 t3).menuOptions = s.menuOptions := by
  unfold onButtonRelease
  simp only
  have hs' : pressDuration s t1 t2 < longPressForCycle := hs
  rw [if_pos hs']
  unfold shortPressNav
  simp only [hm, Bool.false_eq_true, if_false, hd, ha]
  rw [if_pos (by simp)]
  simp [hm]

/-- C9 witness: `gsCorr` sits in a single corridor already moving down. -/
theorem shortPress_single_corridor_noop_witness :
    (onButtonRelease gsCorr 1 1 1).player = gsCorr.player ∧
    (onButtonRelease gsCorr 1 1 1).currentDir = gsCorr.currentDir ∧
    (onButtonRelease gsCorr 1 1 1).running = gsCorr.running ∧
    (onButtonRelease gsCorr 1 1 1).menuActive = false ∧
    (onButtonRelease gsCorr 1 1 1).menuOptions = gsCorr.menuOptions :=
  shortPress_single_corridor_noop gsCorr 1 1 1 (0, 1) (by decide) (by decide)
    (by decide) (by norm_num [pressDuration, gsCorr, longPressForCycle])

/-- C10: when no press time was recorded, `press_duration` falls back to the
difference of two `time()` samples taken in order, which is non-positive and
below the long-press threshold, so the release handler runs its short-press
path (and raises nothing: the handler is total). -/
theorem release_without_press_time_is_short (s : GState) (t1 t2 t3 : ℚ)
    (hp : s.pressTime = none) (hmono : t1 ≤ t2) :
    pressDuration s t1 t2 ≤ 0 ∧ pressDuration s t1 t2 < longPressForCycle ∧
    onButtonRelease s t1 t2 t3 = shortPressNav { s with holding := false } t3 := by
  have hdur : pressDuration s t1 t2 = t1 - t2 := by
    unfold pressDuration
    rw [hp]
  have h0 : pressDuration s t1 t2 ≤ 0 := by rw [hdur]; linarith
  have hlt : pressDuration s t1 t2 < longPressForCycle := by
    have : (0 : ℚ) < longPressForCycle := by norm_num [longPressForCycle]
    linarith
  refine ⟨h0, hlt, ?_⟩
  unfold onButtonRelease
  simp only
  rw [if_pos hlt]

/-- C10 witness: the initial state has no recorded press time. -/
theorem release_without_press_time_is_short_witness :
    pressDuration gsFork 0 0 ≤ 0 ∧ pressDuration gsFork 0 0 < longPressForCycle ∧
    onButtonRelease gsFork 0 0 0 = shortPressNav { gsFork with holding := false } 0 :=
  release_without_press_time_is_short gsFork 0 0 0 (by decide) (by norm_num)

/-- C2 counterexample: in `gsStale` the menu is open on the single stale
option `"Up"`, which names no direction available at the player's cell, yet
confirming CLOSES the menu (`menu_active` becomes `False`), contradicting
the claim that the menu remains open. -/
theorem confirm_stale_selection_closes_menu_cex :
    gsStale.menuActive = true ∧
    (∀ d ∈ availableDirections gsStale.maze gsStale.player.1 gsStale.player.2,
        dirName d ≠ gsStale.menuOptions.getD gsStale.menuSelected "") ∧
    (confirmMenuSelection gsStale 0).menuActive = false ∧
    (confirmMenuSelection gsStale 0).menuOptions = [] := by
  refine ⟨rfl, by decide, ?_, ?_⟩ <;> rfl

/-- C2 amended: confirming a selection whose name matches no currently
available direction leaves the player, `current_direction`, `moving` and the
elapsed-time clock unchanged, but CLOSES the menu (options emptied,
selection reset to 0) instead of leaving it open. -/
theorem confirm_stale_selection_is_noop_but_closes (s : GState) (t : ℚ)
    (h1 : s.menuActive = true) (h2 : s.menuOptions ≠ [])
    (h3 : ∀ d ∈ availableDirections s.maze s.player.1 s.player.2,
        dirName d ≠ s.menuOptions.getD s.menuSelected "") :
    (confirmMenuSelection s t).player = s.player ∧
    (confirmMenuSelection s t).currentDir = s.currentDir ∧
    (confirmMenuSelection s t).running = s.running ∧
    (confirmMenuSelection s t).startTime = s.startTime ∧
    (confirmMenuSelection s t).menuActive = false ∧
    (confirmMenuSelection s t).menuOptions = [] ∧
    (confirmMenuSelection s t).menuSelected = 0 := by
  have hguard : ¬ (¬ s.menuActive = true ∨ s.menuOptions = []) := by
    simp [h1, h2]
  have hfind : (availableDirections s.maze s.player.1 s.player.2).find?
      (fun d => dirName d == s.menuOptions.getD s.menuSelected "") = none := by
    rw [List.find?_eq_none]
    intro d hdmem
    simpa using h3 d hdmem
  unfold confirmMenuSelection
  rw [if_neg hguard]
  simp only [hfind]
  simp

/-- C2 amended witness: applies the amended theorem at the stale state. -/
theorem confirm_stale_selection_witness :
    (confirmMenuSelection gsStale 0).player = gsStale.player ∧
    (confirmMenuSelection gsStale 0).currentDir = gsStale.currentDir ∧
    (confirmMenuSelection gsStale 0).running = gsStale.running ∧
    (confirmMenuSelection gsStale 0).startTime = gsStale.startTime ∧
    (confirmMenuSelection gsStale 0).menuActive = false ∧
    (confirmMenuSelection gsStale 0).menuOptions = [] ∧
    (confirmMenuSelection gsStale 0).menuSelected = 0 :=
  confirm_stale_selection_is_noop_but_closes gsStale 0 (by decide) (by decide) (by decide)

/-! ### The menu invariant (C8) -/

/-- Invariant carried by every reachable navigation state: an active menu is
non-empty with the selection in range, the player stands on a floor cell, and
a set travel direction implies the player's cell has at least one available
direction. -/
def NavInv (s : GState) : Prop :=
  (s.menuActive = true → s.menuOptions ≠ [] ∧ s.menuSelected < s.menuOptions.length) ∧
  isFloor s.maze s.player.1 s.player.2 = true ∧
  (∀ d, s.currentDir = some d →
    availableDirections s.maze s.player.1 s.player.2 ≠ [])

theorem navInv_confirm (s : GState) (t : ℚ) (h : NavInv s) :
    NavInv (confirmMenuSelection s t) := by
  obtain ⟨h1, h2, h3⟩ := h
  unfold confirmMenuSelection
  split
  · exact ⟨h1, h2, h3⟩
  · dsimp only
    split
    next d hfind =>
      refine ⟨?_, by simpa using h2, ?_⟩
      · intro hcon; simp at hcon
      · intro d' hd'
        simp only [Option.some.injEq] at hd'
        subst hd'
        exact List.ne_nil_of_mem (List.mem_of_find?_eq_some hfind)
    next hfind =>
      refine ⟨?_, by simpa using h2, ?_⟩
      · intro hcon; simp at hcon
      · intro d' hd'
        simp only at hd'
        simpa using h3 d' hd'

theorem navInv_autoStep (s : GState) (h : NavInv s) : NavInv (autoStep s) := by
  obtain ⟨h1, h2, h3⟩ := h
  unfold autoStep
  cases hdir : s.currentDir with
  | none => exact ⟨h1, h2, h3⟩
  | some d =>
    simp only
    split
    next hf =>
      split
      next hfork =>
        refine ⟨fun _ => ⟨?_, ?_⟩, by simpa using hf, fun d' hd' => ?_⟩
        · simp only [openMenu, ne_eq, List.map_eq_nil_iff]
          intro hcon; rw [hcon] at hfork; simp at hfork
        · simp only [openMenu, List.length_map]; omega
        · simp only [openMenu, ne_eq]
          intro hcon; rw [hcon] at hfork; simp at hfork
      next hfork =>
        split
        next hdnotin =>
          split
          next hne =>
            refine ⟨fun _ => ⟨?_, ?_⟩, by simpa using hf, fun d' hd' => ?_⟩
            · simp only [openMenu, ne_eq, List.map_eq_nil_iff]
              simpa using hne
            · simp only [openMenu, List.length_map]
              have := List.length_pos.mpr hne
              omega
            · simpa [openMenu] using hne
          next hne =>
            refine ⟨by simpa using h1, by simpa using hf, ?_⟩
            intro d' hd'
            simp at hd'
        next hdin =>
          push_neg at hdin
          refine ⟨by simpa using h1, by simpa using hf, fun d' hd' => ?_⟩
          simpa using List.ne_nil_of_mem hdin
    next hf =>
      split
      next hne =>
        refine ⟨fun _ => ⟨?_, ?_⟩, by simpa using h2, fun d' hd' => ?_⟩
        · simp only [openMenu, ne_eq, List.map_eq_nil_iff]
          simpa using hne
        · simp only [openMenu, List.length_map]
          have := List.length_pos.mpr hne
          omega
        · simpa [openMenu] using hne
      next hne =>
        refine ⟨by simpa using h1, by simpa using h2, ?_⟩
        intro d' hd'
        simp at hd'

theorem navInv_shortPress (s : GState) (t : ℚ) (h : NavInv s) :
    NavInv (shortPressNav s t) := by
  obtain ⟨h1, h2, h3⟩ := h
  unfold shortPressNav
  split
  next hmenu => exact navInv_confirm s t ⟨h1, h2, h3⟩
  next hmenu =>
    cases hdir : s.currentDir with
    | some d =>
      simp only
      split
      · exact ⟨h1, h2, h3⟩
      · split
        next hcond =>
          have hne : availableDirections s.maze s.player.1 s.player.2 ≠ [] := h3 d hdir
          refine ⟨fun _ => ⟨?_, ?_⟩, by simpa using h2, fun d' hd' => ?_⟩
          · simp only [openMenu, ne_eq, List.map_eq_nil_iff]
            simpa using hne
          · simp only [openMenu, List.length_map]
            have := List.length_pos.mpr hne
            omega
          · simpa [openMenu] using hne
        next hcond => exact ⟨h1, h2, h3⟩
    | none =>
      simp only
      split
      next hfork =>
        refine ⟨fun _ => ⟨?_, ?_⟩, by simpa using h2, fun d' hd' => ?_⟩
        · simp only [openMenu, ne_eq, List.map_eq_nil_iff]
          intro hcon; rw [hcon] at hfork; simp at hfork
        · simp only [openMenu, List.length_map]; omega
        · simp only [openMenu, ne_eq]
          intro hcon; rw [hcon] at hfork; simp at hfork
      next hfork => exact ⟨h1, h2, h3⟩

theorem navInv_release (s : GState) (t1 t2 t3 : ℚ) (h : NavInv s) :
    NavInv (onButtonRelease s t1 t2 t3) := by
  obtain ⟨h1, h2, h3⟩ := h
  have h' : NavInv { s with holding := false } := ⟨by simpa using h1, by simpa using h2,
    by simpa using h3⟩
  unfold onButtonRelease
  simp only
  split
  · exact navInv_shortPress _ t3 h'
  · exact h'

theorem navInv_press (s : GState) (t : ℚ) (h : NavInv s) :
    NavInv (onButtonPress s t) := by
  obtain ⟨h1, h2, h3⟩ := h
  exact ⟨by simpa using h1, by simpa using h2, by simpa using h3⟩

theorem navInv_tick (s : GState) (h : NavInv s) : NavInv (loopTick s) := by
  unfold loopTick
  split
  · exact h
  · split
    · obtain ⟨g1, g2, g3⟩ := navInv_autoStep s h
      dsimp only
      split
      next hwin =>
        refine ⟨fun _ => ⟨by simp, by simp⟩, by simpa using g2, fun d' hd' => ?_⟩
        simp only at hd'
        simpa using g3 d' hd'
      next hwin => exact ⟨g1, g2, g3⟩
    · exact h

theorem navInv_step (a b : GState) (hstep : GStep a b) (h : NavInv a) : NavInv b := by
  cases hstep with
  | press t => exact navInv_press a t h
  | release t1 t2 t3 => exact navInv_release a t1 t2 t3 h
  | tick => exact navInv_tick a h

theorem navInv_init (m : MazeS) (hm : isFloor m 1 1 = true) : NavInv (initState m) := by
  refine ⟨?_, by simpa [initState] using hm, ?_⟩
  · intro hcon; simp [initState] at hcon
  · intro d hd; simp [initState] at hd

theorem navInv_reachable (m : MazeS) (hm : isFloor m 1 1 = true) (s : GState)
    (hr : ReachableNav m s) : NavInv s := by
  induction hr with
  | refl => exact navInv_init m hm
  | tail _ hstep ih => exact navInv_step _ _ hstep ih

/-- C8: in every state reachable by the navigation operations from the
initial state of a maze whose start cell is floor, an active menu has a
non-empty options list with the selected index in range — a menu is never
opened with zero options. -/
theorem reachable_menu_wellformed (m : MazeS) (hm : isFloor m 1 1 = true) (s : GState)
    (hr : ReachableNav m s) (ha : s.menuActive = true) :
    s.menuOptions ≠ [] ∧ s.menuSelected < s.menuOptions.length :=
  (navInv_reachable m hm s hr).1 ha

def mzStartFork : MazeS := ⟨5, 5, {(1, 1), (2, 1), (1, 2)}⟩

/-- C8 witness: a short press at the starting fork of `mzStartFork` reaches a
state with an active menu, which the invariant shows to be well-formed. -/
theorem reachable_menu_wellformed_witness :
    (onButtonRelease (initState mzStartFork) 0 0 0).menuOptions ≠ [] ∧
    (onButtonRelease (initState mzStartFork) 0 0 0).menuSelected <
      (onButtonRelease (initState mzStartFork) 0 0 0).menuOptions.length :=
  reachable_menu_wellformed mzStartFork (by decide) _
    (Relation.ReflTransGen.single (GStep.release (initState mzStartFork) 0 0 0))
    (by norm_num [onButtonRelease, pressDuration, longPressForCycle, initState,
      shortPressNav, openMenu, availableDirections, dirOrder, isFloor, mzStartFork,
      List.filter])

/-! ### Maze generator: basic facts -/

theorem mem_mazeNeighbors (w h : ℤ) (c n : Cell) (hmem : n ∈ mazeNeighbors w h c) :
    (∃ δ ∈ genDeltas, n = (c.1 + δ.1, c.2 + δ.2)) ∧
      0 < n.1 ∧ n.1 < w - 1 ∧ 0 < n.2 ∧ n.2 < h - 1 := by
  unfold mazeNeighbors at hmem
  rw [List.mem_filter] at hmem
  obtain ⟨hmap, hbound⟩ := hmem
  rw [List.mem_map] at hmap
  obtain ⟨δ, hδ, rfl⟩ := hmap
  simp only [decide_eq_true_eq] at hbound
  exact ⟨⟨δ, hδ, rfl⟩, hbound.1, hbound.2.1, hbound.2.2.1, hbound.2.2.2⟩

theorem fdiv_double (a : ℤ) : Int.fdiv (a + a) 2 = a := by
  rw [show a + a = 2 * a by ring]
  exact Int.mul_fdiv_cancel_left _ (by norm_num)

/-- The carved wall cell is the unit-step midpoint between the stack top `c`
and the chosen two-step neighbour `n`. -/
theorem carve_mid_spec (c n : Cell) (δ : Cell) (hδ : δ ∈ genDeltas)
    (hn : n = (c.1 + δ.1, c.2 + δ.2)) :
    ∃ u ∈ bfsDeltas,
      (Int.fdiv (c.1 + n.1) 2, Int.fdiv (c.2 + n.2) 2) = (c.1 + u.1, c.2 + u.2) ∧
      n = (c.1 + u.1 + u.1, c.2 + u.2 + u.2) := by
  subst hn
  simp only [genDeltas, List.mem_cons, List.not_mem_nil, or_false] at hδ
  rcases hδ with rfl | rfl | rfl | rfl
  · refine ⟨(0, -1), by simp [bfsDeltas], ?_, ?_⟩
    · rw [Prod.mk.injEq]
      constructor
      · rw [show c.1 + (c.1 + 0) = (c.1 + 0) + (c.1 + 0) by ring, fdiv_double]
      · rw [show c.2 + (c.2 + -2) = (c.2 + -1) + (c.2 + -1) by ring, fdiv_double]
    · rw [Prod.mk.injEq]; constructor <;> ring
  · refine ⟨(1, 0), by simp [bfsDeltas], ?_, ?_⟩
    · rw [Prod.mk.injEq]
      constructor
      · rw [show c.1 + (c.1 + 2) = (c.1 + 1) + (c.1 + 1) by ring, fdiv_double]
      · rw [show c.2 + (c.2 + 0) = (c.2 + 0) + (c.2 + 0) by ring, fdiv_double]
    · rw [Prod.mk.injEq]; constructor <;> ring
  · refine ⟨(0, 1), by simp [bfsDeltas], ?_, ?_⟩
    · rw [Prod.mk.injEq]
      constructor
      · rw [show c.1 + (c.1 + 0) = (c.1 + 0) + (c.1 + 0) by ring, fdiv_double]
      · rw [show c.2 + (c.2 + 2) = (c.2 + 1) + (c.2 + 1) by ring, fdiv_double]
    · rw [Prod.mk.injEq]; constructor <;> ring
  · refine ⟨(-1, 0), by simp [bfsDeltas], ?_, ?_⟩
    · rw [Prod.mk.injEq]
      constructor
      · rw [show c.1 + (c.1 + -2) = (c.1 + -1) + (c.1 + -1) by ring, fdiv_double]
      · rw [show c.2 + (c.2 + 0) = (c.2 + 0) + (c.2 + 0) by ring, fdiv_double]
    · rw [Prod.mk.injEq]; constructor <;> ring

/-- The cell picked by the choice oracle is one of the filtered candidates. -/
theorem carve_pick_mem (l : List Cell) (j : ℕ) (hne : l ≠ []) :
    l.getD (j % l.length) (0, 0) ∈ l := by
  have hlen : 0 < l.length := List.length_pos.mpr hne
  have hj : j % l.length < l.length := Nat.mod_lt _ hlen
  rw [List.getD_eq_getElem _ _ hj]
  exact List.getElem_mem hj

theorem reachF_mono (w h : ℤ) (f1 f2 : Finset Cell) (hsub : f1 ⊆ f2) (p q : Cell)
    (hr : ReachF w h f1 p q) : ReachF w h f2 p q := by
  induction hr with
  | refl => exact Relation.ReflTransGen.refl
  | tail _ hadj ih =>
    exact Relation.ReflTransGen.tail ih
      ⟨hadj.1, hadj.2.1, hadj.2.2.1, hadj.2.2.2.1, hadj.2.2.2.2.1, hsub hadj.2.2.2.2.2⟩

/-- Connectivity invariant of the generator loop: the stack holds floor
cells, all floors are in bounds, and every floor cell is reachable from
`(1,1)` through floor cells. -/
def GenOutA (w h : ℤ) (r : Finset Cell × List Cell) : Prop :=
  (∀ c ∈ r.2, c ∈ r.1) ∧ (∀ p ∈ r.1, p ∈ mazeBox w h) ∧
    (∀ p ∈ r.1, ReachF w h r.1 (1, 1) p)

theorem mem_mazeBox (w h : ℤ) (p : Cell) :
    p ∈ mazeBox w h ↔ 0 ≤ p.1 ∧ p.1 < w ∧ 0 ≤ p.2 ∧ p.2 < h := by
  unfold mazeBox
  rw [Finset.mem_product, Finset.mem_Ico, Finset.mem_Ico]
  tauto

theorem genLoopAux_invA (w h : ℤ) (fuel : ℕ) :
    ∀ (choices : ℕ → ℕ) (floors : Finset Cell) (stack : List Cell),
    GenOutA w h (floors, stack) →
    GenOutA w h (genLoopAux w h fuel choices floors stack) := by
  induction fuel with
  | zero => intro choices floors stack hA; exact hA
  | succ fuel ih =>
    intro choices floors stack hA
    obtain ⟨hstack, hbox, hreach⟩ := hA
    cases stack with
    | nil =>
      rw [genLoopAux.eq_def]
      simp only
      exact ⟨by simp, hbox, hreach⟩
    | cons c rest =>
      rw [genLoopAux.eq_def]
      simp only
      split
      next hnil =>
        exact ih choices floors rest ⟨fun x hx => hstack x (List.mem_cons_of_mem c hx),
          hbox, hreach⟩
      next hnil =>
        apply ih
        set neigh := (mazeNeighbors w h c).filter (fun n => decide (n ∉ floors)) with hneigh
        have hpick := carve_pick_mem neigh (choices 0) hnil
        set n := neigh.getD (choices 0 % neigh.length) (0, 0) with hndef
        rw [List.mem_filter] at hpick
        obtain ⟨hnn, hnnot⟩ := hpick
        rw [decide_eq_true_eq] at hnnot
        obtain ⟨⟨δ, hδ, hnδ⟩, hx0, hx1, hy0, hy1⟩ := mem_mazeNeighbors w h c n hnn
        obtain ⟨u, humem, hmid, hnu⟩ := carve_mid_spec c n δ hδ hnδ
        set mid : Cell := (Int.fdiv (c.1 + n.1) 2, Int.fdiv (c.2 + n.2) 2) with hmiddef
        have hcfloor : c ∈ floors := hstack c (List.mem_cons_self c rest)
        have hcbox := hbox c hcfloor
        rw [mem_mazeBox] at hcbox
        have hnbox : n ∈ mazeBox w h := by rw [mem_mazeBox]; omega
        have hmidbox : mid ∈ mazeBox w h := by
          rw [mem_mazeBox, hmid]
          have hnc1 : n.1 = c.1 + u.1 + u.1 := by rw [hnu]
          have hnc2 : n.2 = c.2 + u.2 + u.2 := by rw [hnu]
          simp only [bfsDeltas, List.mem_cons, List.not_mem_nil, or_false] at humem
          rcases humem with rfl | rfl | rfl | rfl <;> simp only <;> omega
        have hsub : floors ⊆ insert n (insert mid floors) := by
          intro x hx
          exact Finset.mem_insert_of_mem (Finset.mem_insert_of_mem hx)
        have hreach' : ∀ p ∈ insert n (insert mid floors),
            ReachF w h (insert n (insert mid floors)) (1, 1) p := by
          have hreachc : ReachF w h (insert n (insert mid floors)) (1, 1) c :=
            reachF_mono w h floors _ hsub _ _ (hreach c hcfloor)
          have hmidbox' := (mem_mazeBox w h mid).mp hmidbox
          have hreachmid : ReachF w h (insert n (insert mid floors)) (1, 1) mid := by
            refine Relation.ReflTransGen.tail hreachc
              ⟨⟨u, humem, ?_⟩, hmidbox'.1, hmidbox'.2.1, hmidbox'.2.2.1, hmidbox'.2.2.2,
                Finset.mem_insert_of_mem (Finset.mem_insert_self mid floors)⟩
            rw [hmid]
          have hnbox' := (mem_mazeBox w h n).mp hnbox
          have hreachn : ReachF w h (insert n (insert mid floors)) (1, 1) n := by
            refine Relation.ReflTransGen.tail hreachmid
              ⟨⟨u, humem, ?_⟩, hnbox'.1, hnbox'.2.1, hnbox'.2.2.1, hnbox'.2.2.2,
                Finset.mem_insert_self n _⟩
            rw [hnu, hmid]
          intro p hp
          rw [Finset.mem_insert, Finset.mem_insert] at hp
          rcases hp with rfl | rfl | hp
          · exact hreachn
          · exact hreachmid
          · exact reachF_mono w h floors _ hsub _ _ (hreach p hp)
        refine ⟨?_, ?_, hreach'⟩
        · intro x hx
          simp only [List.mem_cons] at hx
          rcases hx with rfl | rfl | hx
          · exact Finset.mem_insert_self _ _
          · exact hsub hcfloor
          · exact hsub (hstack _ (List.mem_cons_of_mem c hx))
        · intro p hp
          rw [Finset.mem_insert, Finset.mem_insert] at hp
          rcases hp with rfl | rfl | hp
          · exact hnbox
          · exact hmidbox
          · exact hbox p hp

/-- Each loop iteration strictly decreases `2·|box \ floors| + |stack|`, so
`genFuel` suffices for the stack to empty — the loop reaches its natural
exit. -/
theorem genLoopAux_term (w h : ℤ) (fuel : ℕ) :
    ∀ (choices : ℕ → ℕ) (floors : Finset Cell) (stack : List Cell),
    2 * ((mazeBox w h \ floors).card) + stack.length ≤ fuel →
    (genLoopAux w h fuel choices floors stack).2 = [] := by
  induction fuel with
  | zero =>
    intro choices floors stack hm
    have hz : stack.length = 0 := by omega
    rw [List.length_eq_zero] at hz
    subst hz
    rfl
  | succ fuel ih =>
    intro choices floors stack hm
    cases stack with
    | nil => rw [genLoopAux.eq_def]
    | cons c rest =>
      rw [genLoopAux.eq_def]
      simp only
      split
      next hnil =>
        apply ih
        simp only [List.length_cons] at hm
        omega
      next hnil =>
        apply ih
        set neigh := (mazeNeighbors w h c).filter (fun n => decide (n ∉ floors)) with hneigh
        have hpick := carve_pick_mem neigh (choices 0) hnil
        set n := neigh.getD (choices 0 % neigh.length) (0, 0) with hndef
        rw [List.mem_filter] at hpick
        obtain ⟨hnn, hnnot⟩ := hpick
        rw [decide_eq_true_eq] at hnnot
        obtain ⟨_, hx0, hx1, hy0, hy1⟩ := mem_mazeNeighbors w h c n hnn
        have hnbox : n ∈ mazeBox w h := by rw [mem_mazeBox]; omega
        have hnsd : n ∈ mazeBox w h \ floors := Finset.mem_sdiff.mpr ⟨hnbox, hnnot⟩
        set mid : Cell := (Int.fdiv (c.1 + n.1) 2, Int.fdiv (c.2 + n.2) 2) with hmiddef
        have hsubset : mazeBox w h \ insert n (insert mid floors) ⊆
            (mazeBox w h \ floors).erase n := by
          intro p hp
          rw [Finset.mem_sdiff] at hp
          rw [Finset.mem_erase, Finset.mem_sdiff]
          refine ⟨fun heq => hp.2 (by rw [heq]; exact Finset.mem_insert_self n _), hp.1,
            fun hf => hp.2 (Finset.mem_insert_of_mem (Finset.mem_insert_of_mem hf))⟩
        have hcard : (mazeBox w h \ insert n (insert mid floors)).card ≤
            (mazeBox w h \ floors).card - 1 := by
          calc (mazeBox w h \ insert n (insert mid floors)).card
              ≤ ((mazeBox w h \ floors).erase n).card := Finset.card_le_card hsubset
            _ = (mazeBox w h \ floors).card - 1 := Finset.card_erase_of_mem hnsd
        have hpos : 0 < (mazeBox w h \ floors).card := Finset.card_pos.mpr ⟨n, hnsd⟩
        simp only [List.length_cons] at hm ⊢
        omega

theorem genRun_stack_empty (w h : ℤ) (choices : ℕ → ℕ) :
    (mazeGenRun w h choices).2 = [] := by
  apply genLoopAux_term
  have h1 : (mazeBox w h \ {((1 : ℤ), (1 : ℤ))}).card ≤ (mazeBox w h).card :=
    Finset.card_le_card Finset.sdiff_subset
  have h2 : (mazeBox w h).card = w.toNat * h.toNat := by
    unfold mazeBox
    rw [Finset.card_product, Int.card_Ico, Int.card_Ico]
    simp
  simp only [genFuel, List.length_cons, List.length_nil]
  omega

theorem mazeInit_floors_in_box (width height : ℤ) (choices : ℕ → ℕ) (m : MazeS)
    (hok : mazeInit width height choices = Except.ok m) :
    m.w = oddify width ∧ m.h = oddify height ∧ 1 < m.w ∧ 1 < m.h ∧
      m.floors = (mazeGenRun m.w m.h choices).1 ∧
      (∀ p ∈ m.floors, p ∈ mazeBox m.w m.h) ∧
      (∀ p ∈ m.floors, ReachF m.w m.h m.floors (1, 1) p) := by
  unfold mazeInit at hok
  dsimp only at hok
  split at hok
  next hdim =>
    simp only [Except.ok.injEq] at hok
    subst hok
    have hbox0 : ∀ p ∈ ({((1 : ℤ), (1 : ℤ))} : Finset Cell),
        p ∈ mazeBox (oddify width) (oddify height) := by
      intro p hp
      rw [Finset.mem_singleton] at hp
      subst hp
      rw [mem_mazeBox]
      exact ⟨by norm_num, hdim.1, by norm_num, hdim.2⟩
    have hreach0 : ∀ p ∈ ({((1 : ℤ), (1 : ℤ))} : Finset Cell),
        ReachF (oddify width) (oddify height) {((1 : ℤ), (1 : ℤ))} (1, 1) p := by
      intro p hp
      rw [Finset.mem_singleton] at hp
      subst hp
      exact Relation.ReflTransGen.refl
    have hA := genLoopAux_invA (oddify width) (oddify height)
      (genFuel (oddify width) (oddify height)) choices {(1, 1)} [(1, 1)]
      ⟨by simp, hbox0, hreach0⟩
    exact ⟨rfl, rfl, hdim.1, hdim.2, rfl, hA.2.1, hA.2.2⟩
  next => exact absurd hok (by simp)

/-- C3 (amended): for any requested dimensions whose odd-rounding is at
least 3, `Maze.__init__` succeeds, every floor cell it produces lies inside
the grid (all grid accesses in bounds), and the generation loop runs to its
natural exit (the backtracking stack empties within the proved fuel
bound). -/
theorem mazeInit_ok_of_odd_ge3 (width height : ℤ) (choices : ℕ → ℕ)
    (hw : 3 ≤ oddify width) (hh : 3 ≤ oddify height) :
    ∃ m : MazeS, mazeInit width height choices = Except.ok m ∧
      (∀ p ∈ m.floors, p ∈ mazeBox m.w m.h) ∧
      (mazeGenRun (oddify width) (oddify height) choices).2 = [] := by
  have hok : mazeInit width height choices =
      Except.ok ⟨oddify width, oddify height,
        (mazeGenRun (oddify width) (oddify height) choices).1⟩ := by
    unfold mazeInit
    rw [if_pos ⟨by omega, by omega⟩]
  exact ⟨_, hok, (mazeInit_floors_in_box width height choices _ hok).2.2.2.2.2.1,
    genRun_stack_empty _ _ _⟩

/-- C3 counterexample: for requested dimensions `1 × 1` the constructor does
NOT return a trivial single-floor-cell maze; `grid[1][1] = 0` raises
`IndexError` (embedded as `Except.error`). -/
theorem mazeInit_degenerate_raises :
    mazeInit 1 1 ch0 = Except.error "IndexError" := by rfl

/-- C3 witness: requested dimensions `4 × 4` round to `3 × 3` and succeed. -/
theorem mazeInit_ok_witness :
    ∃ m : MazeS, mazeInit 4 4 ch0 = Except.ok m ∧
      (∀ p ∈ m.floors, p ∈ mazeBox m.w m.h) ∧
      (mazeGenRun (oddify 4) (oddify 4) ch0).2 = [] :=
  mazeInit_ok_of_odd_ge3 4 4 ch0 (by decide) (by decide)

/-! ### BFS correctness (seen set reaches everything reachable) -/

theorem bfsExpand_seen_mono (m : MazeS) (x y : ℤ) (d : ℕ) :
    ∀ (l : List Cell) (q : List (Cell × ℕ)) (seen : Finset Cell),
    seen ⊆ (bfsExpand m x y d l q seen).2 := by
  intro l
  induction l with
  | nil => intro q seen; exact Finset.Subset.refl seen
  | cons δ rest ih =>
    intro q seen
    rw [bfsExpand.eq_def]
    dsimp only
    split
    · exact Finset.Subset.trans (Finset.subset_insert _ seen) (ih _ _)
    · exact ih _ _

theorem bfsExpand_queue_mono (m : MazeS) (x y : ℤ) (d : ℕ) :
    ∀ (l : List Cell) (q : List (Cell × ℕ)) (seen : Finset Cell),
    ∀ e ∈ q, e ∈ (bfsExpand m x y d l q seen).1 := by
  intro l
  induction l with
  | nil => intro q seen e he; exact he
  | cons δ rest ih =>
    intro q seen e he
    rw [bfsExpand.eq_def]
    dsimp only
    split
    · exact ih _ _ e (List.mem_append_left _ he)
    · exact ih _ _ e he

theorem bfsExpand_queue_cases (m : MazeS) (x y : ℤ) (d : ℕ) :
    ∀ (l : List Cell) (q : List (Cell × ℕ)) (seen : Finset Cell),
    ∀ e ∈ (bfsExpand m x y d l q seen).1, e ∈ q ∨ e.1 ∈ (bfsExpand m x y d l q seen).2 := by
  intro l
  induction l with
  | nil => intro q seen e he; exact Or.inl he
  | cons δ rest ih =>
    intro q seen e he
    rw [bfsExpand.eq_def] at he ⊢
    dsimp only at he ⊢
    split at he
    next hguard =>
      rw [if_pos hguard]
      rcases ih _ _ e he with hq | hs
      · rcases List.mem_append.mp hq with hq' | hq'
        · exact Or.inl hq'
        · right
          rw [List.mem_singleton] at hq'
          subst hq'
          exact bfsExpand_seen_mono m x y d rest _ _ (Finset.mem_insert_self _ _)
      · exact Or.inr hs
    next hguard =>
      rw [if_neg hguard]
      exact ih _ _ e he

theorem bfsExpand_closure (m : MazeS) (x y : ℤ) (d : ℕ) :
    ∀ (l : List Cell) (q : List (Cell × ℕ)) (seen : Finset Cell),
    ∀ δ ∈ l,
      (0 ≤ x + δ.1 ∧ x + δ.1 < m.w ∧ 0 ≤ y + δ.2 ∧ y + δ.2 < m.h ∧
        (x + δ.1, y + δ.2) ∈ m.floors) →
      (x + δ.1, y + δ.2) ∈ (bfsExpand m x y d l q seen).2 := by
  intro l
  induction l with
  | nil => intro q seen δ hδ; exact absurd hδ (List.not_mem_nil δ)
  | cons δ0 rest ih =>
    intro q seen δ hδ hgood
    rw [List.mem_cons] at hδ
    rw [bfsExpand.eq_def]
    dsimp only
    rcases hδ with rfl | hδrest
    · split
      next hguard =>
        exact bfsExpand_seen_mono m x y d rest _ _ (Finset.mem_insert_self _ _)
      next hguard =>
        have hseen : (x + δ.1, y + δ.2) ∈ seen := by
          by_contra hnot
          exact hguard ⟨hgood.1, hgood.2.1, hgood.2.2.1, hgood.2.2.2.1, hnot,
            hgood.2.2.2.2⟩
        exact bfsExpand_seen_mono m x y d rest _ _ hseen
    · split
      · exact ih _ _ δ hδrest hgood
      · exact ih _ _ δ hδrest hgood

theorem bfsExpand_new_in_queue (m : MazeS) (x y : ℤ) (d : ℕ) :
    ∀ (l : List Cell) (q : List (Cell × ℕ)) (seen : Finset Cell),
    ∀ p ∈ (bfsExpand m x y d l q seen).2,
      p ∈ seen ∨ ∃ e ∈ (bfsExpand m x y d l q seen).1, e.1 = p := by
  intro l
  induction l with
  | nil => intro q seen p hp; exact Or.inl hp
  | cons δ rest ih =>
    intro q seen p hp
    rw [bfsExpand.eq_def] at hp ⊢
    dsimp only at hp ⊢
    split at hp
    next hguard =>
      rw [if_pos hguard]
      rcases ih _ _ p hp with hs | hq
      · rcases Finset.mem_insert.mp hs with rfl | hs'
        · right
          refine ⟨((x + δ.1, y + δ.2), d + 1), ?_, rfl⟩
          exact bfsExpand_queue_mono m x y d rest _ _ _
            (List.mem_append_right _ (List.mem_singleton_self _))
        · exact Or.inl hs'
      · exact Or.inr hq
    next hguard =>
      rw [if_neg hguard]
      exact ih _ _ p hp

theorem bfsExpand_measure (m : MazeS) (x y : ℤ) (d : ℕ) :
    ∀ (l : List Cell) (q : List (Cell × ℕ)) (seen : Finset Cell),
    2 * ((mazeBox m.w m.h \ (bfsExpand m x y d l q seen).2).card) +
        (bfsExpand m x y d l q seen).1.length ≤
      2 * ((mazeBox m.w m.h \ seen).card) + q.length := by
  intro l
  induction l with
  | nil => intro q seen; exact Nat.le.refl
  | cons δ rest ih =>
    intro q seen
    rw [bfsExpand.eq_def]
    dsimp only
    split
    next hguard =>
      have hn_box : ((x + δ.1, y + δ.2) : Cell) ∈ mazeBox m.w m.h := by
        rw [mem_mazeBox]
        exact ⟨hguard.1, hguard.2.1, hguard.2.2.1, hguard.2.2.2.1⟩
      have hn_not : ((x + δ.1, y + δ.2) : Cell) ∉ seen := hguard.2.2.2.2.1
      have hn_sd : ((x + δ.1, y + δ.2) : Cell) ∈ mazeBox m.w m.h \ seen :=
        Finset.mem_sdiff.mpr ⟨hn_box, hn_not⟩
      have hsubset : mazeBox m.w m.h \ insert (x + δ.1, y + δ.2) seen ⊆
          (mazeBox m.w m.h \ seen).erase (x + δ.1, y + δ.2) := by
        intro p hp
        rw [Finset.mem_sdiff] at hp
        rw [Finset.mem_erase, Finset.mem_sdiff]
        refine ⟨fun heq => hp.2 (by rw [heq]; exact Finset.mem_insert_self _ _), hp.1,
          fun hf => hp.2 (Finset.mem_insert_of_mem hf)⟩
      have hcard : (mazeBox m.w m.h \ insert (x + δ.1, y + δ.2) seen).card ≤
          (mazeBox m.w m.h \ seen).card - 1 := by
        calc (mazeBox m.w m.h \ insert (x + δ.1, y + δ.2) seen).card
            ≤ ((mazeBox m.w m.h \ seen).erase (x + δ.1, y + δ.2)).card :=
              Finset.card_le_card hsubset
          _ = (mazeBox m.w m.h \ seen).card - 1 := Finset.card_erase_of_mem hn_sd
      have hpos : 0 < (mazeBox m.w m.h \ seen).card := Finset.card_pos.mpr ⟨_, hn_sd⟩
      have := ih (q ++ [((x + δ.1, y + δ.2), d + 1)]) (insert (x + δ.1, y + δ.2) seen)
      rw [List.length_append, List.length_singleton] at this
      omega
    next hguard => exact ih _ _

/-- The loop invariant of the BFS: queue entries are seen, and every seen
cell is either still queued or has all its in-bounds floor neighbours
seen. -/
def BfsInv (m : MazeS) (st : BfsState) : Prop :=
  (∀ e ∈ st.queue, e.1 ∈ st.seen) ∧
  (∀ p ∈ st.seen, (∃ e ∈ st.queue, e.1 = p) ∨
    (∀ δ ∈ bfsDeltas,
      (0 ≤ p.1 + δ.1 ∧ p.1 + δ.1 < m.w ∧ 0 ≤ p.2 + δ.2 ∧ p.2 + δ.2 < m.h ∧
        (p.1 + δ.1, p.2 + δ.2) ∈ m.floors) →
      (p.1 + δ.1, p.2 + δ.2) ∈ st.seen))

theorem bfsAux_seen_mono (m : MazeS) (fuel : ℕ) :
    ∀ st : BfsState, st.seen ⊆ (bfsAux m fuel st).seen := by
  induction fuel with
  | zero => intro st; exact Finset.Subset.refl _
  | succ fuel ih =>
    intro st
    obtain ⟨queue, seen, far, trace⟩ := st
    cases queue with
    | nil => rw [bfsAux.eq_def]
    | cons e rest =>
      obtain ⟨p, d⟩ := e
      rw [bfsAux.eq_def]
      dsimp only
      exact Finset.Subset.trans (bfsExpand_seen_mono m p.1 p.2 d bfsDeltas rest seen)
        (ih ⟨(bfsExpand m p.1 p.2 d bfsDeltas rest seen).1,
          (bfsExpand m p.1 p.2 d bfsDeltas rest seen).2,
          if d > far.2 then (p, d) else far, trace ++ [(p, d)]⟩)

theorem bfsAux_inv (m : MazeS) (fuel : ℕ) :
    ∀ st : BfsState, BfsInv m st → BfsInv m (bfsAux m fuel st) := by
  induction fuel with
  | zero => intro st h; exact h
  | succ fuel ih =>
    intro st h
    obtain ⟨queue, seen, far, trace⟩ := st
    cases queue with
    | nil => rw [bfsAux.eq_def]; exact h
    | cons e rest =>
      obtain ⟨p, d⟩ := e
      rw [bfsAux.eq_def]
      dsimp only
      apply ih
      obtain ⟨hq, hcl⟩ := h
      constructor
      · intro e he
        dsimp only at he ⊢
        rcases bfsExpand_queue_cases m p.1 p.2 d bfsDeltas rest seen e he with hrest | hseen
        · exact bfsExpand_seen_mono m p.1 p.2 d bfsDeltas rest seen
            (hq e (List.mem_cons_of_mem _ hrest))
        · exact hseen
      · intro x hx
        dsimp only at hx ⊢
        rcases bfsExpand_new_in_queue m p.1 p.2 d bfsDeltas rest seen x hx with hxseen | hxq
        · rcases hcl x hxseen with ⟨e, he, hep⟩ | hclosed
          · rcases List.mem_cons.mp he with rfl | herest
            · obtain rfl : p = x := hep
              right
              intro δ hδ hgood
              exact bfsExpand_closure m p.1 p.2 d bfsDeltas rest seen δ hδ hgood
            · left
              exact ⟨e, bfsExpand_queue_mono m p.1 p.2 d bfsDeltas rest seen e herest, hep⟩
          · right
            intro δ hδ hgood
            exact bfsExpand_seen_mono m p.1 p.2 d bfsDeltas rest seen (hclosed δ hδ hgood)
        · left
          exact hxq

theorem bfsAux_term (m : MazeS) (fuel : ℕ) :
    ∀ st : BfsState, 2 * ((mazeBox m.w m.h \ st.seen).card) + st.queue.length ≤ fuel →
    (bfsAux m fuel st).queue = [] := by
  induction fuel with
  | zero =>
    intro st hm
    have hz : st.queue.length = 0 := by omega
    rw [List.length_eq_zero] at hz
    rw [bfsAux.eq_def]
    exact hz
  | succ fuel ih =>
    intro st hm
    obtain ⟨queue, seen, far, trace⟩ := st
    cases queue with
    | nil => rw [bfsAux.eq_def]
    | cons e rest =>
      obtain ⟨p, d⟩ := e
      rw [bfsAux.eq_def]
      dsimp only
      apply ih
      dsimp only
      have hexp := bfsExpand_measure m p.1 p.2 d bfsDeltas rest seen
      simp only [List.length_cons] at hm
      omega

theorem mazeBox_card (w h : ℤ) : (mazeBox w h).card = w.toNat * h.toNat := by
  unfold mazeBox
  rw [Finset.card_product, Int.card_Ico, Int.card_Ico]
  simp

theorem bfsRun_queue_empty (m : MazeS) (sx sy : ℤ) : (bfsRun m sx sy).queue = [] := by
  unfold bfsRun
  apply bfsAux_term
  have h1 : (mazeBox m.w m.h \ ({((sx, sy))} : Finset Cell)).card ≤ (mazeBox m.w m.h).card :=
    Finset.card_le_card Finset.sdiff_subset
  have h2 := mazeBox_card m.w m.h
  simp only [bfsInit, bfsFuel, List.length_cons, List.length_nil]
  omega

theorem bfsInit_inv (m : MazeS) (sx sy : ℤ) : BfsInv m (bfsInit sx sy) := by
  refine ⟨?_, ?_⟩
  · intro e he
    simp only [bfsInit, List.mem_singleton] at he
    subst he
    simp [bfsInit]
  · intro p hp
    simp only [bfsInit, Finset.mem_singleton] at hp
    subst hp
    left
    exact ⟨((sx, sy), 0), by simp [bfsInit], rfl⟩

/-- Any cell reachable from the start through in-bounds floor cells is
visited (added to `seen`) by the BFS of `place_treasure_farthest_from`. -/
theorem bfs_reach_seen (m : MazeS) (sx sy : ℤ) (q : Cell)
    (hr : ReachF m.w m.h m.floors (sx, sy) q) : q ∈ (bfsRun m sx sy).seen := by
  have hinv : BfsInv m (bfsRun m sx sy) :=
    bfsAux_inv m (bfsFuel m) (bfsInit sx sy) (bfsInit_inv m sx sy)
  have hempty := bfsRun_queue_empty m sx sy
  have hclosed : ∀ p ∈ (bfsRun m sx sy).seen, ∀ δ ∈ bfsDeltas,
      (0 ≤ p.1 + δ.1 ∧ p.1 + δ.1 < m.w ∧ 0 ≤ p.2 + δ.2 ∧ p.2 + δ.2 < m.h ∧
        (p.1 + δ.1, p.2 + δ.2) ∈ m.floors) →
      (p.1 + δ.1, p.2 + δ.2) ∈ (bfsRun m sx sy).seen := by
    intro p hp δ hδ hgood
    rcases hinv.2 p hp with ⟨e, he, _⟩ | h
    · rw [hempty] at he
      exact absurd he (List.not_mem_nil e)
    · exact h δ hδ hgood
  have hstart : (sx, sy) ∈ (bfsRun m sx sy).seen :=
    bfsAux_seen_mono m (bfsFuel m) (bfsInit sx sy) (by simp [bfsInit])
  induction hr with
  | refl => exact hstart
  | tail hr hadj ih =>
    obtain ⟨⟨δ, hδ, hq⟩, hb1, hb2, hb3, hb4, hfl⟩ := hadj
    subst hq
    exact hclosed _ ih δ hδ ⟨hb1, hb2, hb3, hb4, hfl⟩

/-- C1: for every maze the generator produces (any requested dimensions, any
random stream), the breadth-first search of `place_treasure_farthest_from`
started at `(1,1)` visits every floor cell: no floor cell is unreachable
from the start. -/
theorem generated_maze_fully_connected (width height : ℤ) (choices : ℕ → ℕ) (m : MazeS)
    (hok : mazeInit width height choices = Except.ok m) :
    ∀ p ∈ m.floors, p ∈ (bfsRun m 1 1).seen := by
  intro p hp
  exact bfs_reach_seen m 1 1 p
    ((mazeInit_floors_in_box width height choices m hok).2.2.2.2.2.2 p hp)

def mzGen3 : MazeS := ⟨3, 3, (mazeGenRun 3 3 ch0).1⟩

/-- C1 witness: the generated `3 × 3` maze with the constant-zero choice
stream; its floor cell `(1,1)` is visited by the BFS. -/
theorem generated_maze_fully_connected_witness :
    mazeInit 3 3 ch0 = Except.ok mzGen3 ∧ (1, 1) ∈ mzGen3.floors ∧
      (1, 1) ∈ (bfsRun mzGen3 1 1).seen :=
  ⟨rfl, by decide, generated_maze_fully_connected 3 3 ch0 mzGen3 rfl (1, 1) (by decide)⟩

/-! ### Perfect-maze counting (C6) -/

/-- Number of floor cells at room coordinates (both coordinates odd). -/
def roomCount (floors : Finset Cell) : ℕ :=
  (floors.filter (fun p => p.1 % 2 = 1 ∧ p.2 % 2 = 1)).card

/-- Number of floor cells at non-room coordinates: exactly the wall
midpoints knocked down during generation. -/
def carvedCount (floors : Finset Cell) : ℕ :=
  (floors.filter (fun p => ¬(p.1 % 2 = 1 ∧ p.2 % 2 = 1))).card

/-- A non-room floor cell has both of its axis room-neighbours floor. -/
def sideNbrsIn (floors : Finset Cell) (p : Cell) : Prop :=
  if p.1 % 2 = 1 then (p.1, p.2 - 1) ∈ floors ∧ (p.1, p.2 + 1) ∈ floors
  else (p.1 - 1, p.2) ∈ floors ∧ (p.1 + 1, p.2) ∈ floors

theorem sideNbrsIn_mono (f1 f2 : Finset Cell) (hsub : f1 ⊆ f2) (p : Cell)
    (h : sideNbrsIn f1 p) : sideNbrsIn f2 p := by
  unfold sideNbrsIn at h ⊢
  split at h
  next hp => rw [if_pos hp]; exact ⟨hsub h.1, hsub h.2⟩
  next hp => rw [if_neg hp]; exact ⟨hsub h.1, hsub h.2⟩

theorem carve_parity_facts (c n mid u : Cell) (hu : u ∈ bfsDeltas)
    (hcodd : c.1 % 2 = 1 ∧ c.2 % 2 = 1)
    (hmid : mid = (c.1 + u.1, c.2 + u.2))
    (hn : n = (c.1 + u.1 + u.1, c.2 + u.2 + u.2)) :
    (n.1 % 2 = 1 ∧ n.2 % 2 = 1) ∧
    ¬(mid.1 % 2 = 1 ∧ mid.2 % 2 = 1) ∧
    (if mid.1 % 2 = 1
     then ((mid.1, mid.2 - 1) = c ∧ (mid.1, mid.2 + 1) = n) ∨
          ((mid.1, mid.2 - 1) = n ∧ (mid.1, mid.2 + 1) = c)
     else ((mid.1 - 1, mid.2) = c ∧ (mid.1 + 1, mid.2) = n) ∨
          ((mid.1 - 1, mid.2) = n ∧ (mid.1 + 1, mid.2) = c)) := by
  obtain ⟨hc1, hc2⟩ := hcodd
  subst hmid hn
  simp only [bfsDeltas, List.mem_cons, List.not_mem_nil, or_false] at hu
  obtain ⟨cx, cy⟩ := c
  simp only at hc1 hc2
  rcases hu with rfl | rfl | rfl | rfl
  · dsimp only
    refine ⟨⟨by omega, by omega⟩, by omega, ?_⟩
    rw [if_neg (by omega)]
    left
    constructor <;> (rw [Prod.mk.injEq]; constructor <;> omega)
  · dsimp only
    refine ⟨⟨by omega, by omega⟩, by omega, ?_⟩
    rw [if_neg (by omega)]
    right
    constructor <;> (rw [Prod.mk.injEq]; constructor <;> omega)
  · dsimp only
    refine ⟨⟨by omega, by omega⟩, by omega, ?_⟩
    rw [if_pos (by omega)]
    left
    constructor <;> (rw [Prod.mk.injEq]; constructor <;> omega)
  · dsimp only
    refine ⟨⟨by omega, by omega⟩, by omega, ?_⟩
    rw [if_pos (by omega)]
    right
    constructor <;> (rw [Prod.mk.injEq]; constructor <;> omega)

/-- Counting invariant of the generator loop: stack cells sit at room
coordinates, every carved wall has its two room-neighbours floor, and the
room/carved counts satisfy the spanning-tree equation. -/
def GenOutB (r : Finset Cell × List Cell) : Prop :=
  (∀ c ∈ r.2, c.1 % 2 = 1 ∧ c.2 % 2 = 1) ∧
  (∀ c ∈ r.2, c ∈ r.1) ∧
  (∀ p ∈ r.1, ¬(p.1 % 2 = 1 ∧ p.2 % 2 = 1) → sideNbrsIn r.1 p) ∧
  roomCount r.1 = carvedCount r.1 + 1

theorem genLoopAux_invB (w h : ℤ) (fuel : ℕ) :
    ∀ (choices : ℕ → ℕ) (floors : Finset Cell) (stack : List Cell),
    GenOutB (floors, stack) →
    GenOutB (genLoopAux w h fuel choices floors stack) := by
  induction fuel with
  | zero => intro choices floors stack hB; exact hB
  | succ fuel ih =>
    intro choices floors stack hB
    obtain ⟨hstack, hstackf, hside, hcount⟩ := hB
    cases stack with
    | nil =>
      rw [genLoopAux.eq_def]
      simp only
      exact ⟨by simp, by simp, hside, hcount⟩
    | cons c rest =>
      rw [genLoopAux.eq_def]
      simp only
      split
      next hnil =>
        exact ih choices floors rest ⟨fun x hx => hstack x (List.mem_cons_of_mem c hx),
          fun x hx => hstackf x (List.mem_cons_of_mem c hx), hside, hcount⟩
      next hnil =>
        apply ih
        set neigh := (mazeNeighbors w h c).filter (fun n => decide (n ∉ floors)) with hneigh
        have hpick := carve_pick_mem neigh (choices 0) hnil
        set n := neigh.getD (choices 0 % neigh.length) (0, 0) with hndef
        rw [List.mem_filter] at hpick
        obtain ⟨hnn, hnnot⟩ := hpick
        rw [decide_eq_true_eq] at hnnot
        obtain ⟨⟨δ, hδ, hnδ⟩, hx0, hx1, hy0, hy1⟩ := mem_mazeNeighbors w h c n hnn
        obtain ⟨u, humem, hmid, hnu⟩ := carve_mid_spec c n δ hδ hnδ
        set mid : Cell := (Int.fdiv (c.1 + n.1) 2, Int.fdiv (c.2 + n.2) 2) with hmiddef
        have hcodd := hstack c (List.mem_cons_self c rest)
        obtain ⟨hnodd, hmidnot, hmidnbrs⟩ := carve_parity_facts c n mid u humem hcodd hmid hnu
        have hcfloor : c ∈ floors := hstackf c (List.mem_cons_self c rest)
        have hmidfresh : mid ∉ floors := by
          intro hmidin
          have hnbrs := hside mid hmidin hmidnot
          unfold sideNbrsIn at hnbrs
          by_cases hpar : mid.1 % 2 = 1
          · rw [if_pos hpar] at hnbrs hmidnbrs
            rcases hmidnbrs with ⟨h1, h2⟩ | ⟨h1, h2⟩
            · exact hnnot (h2 ▸ hnbrs.2)
            · exact hnnot (h1 ▸ hnbrs.1)
          · rw [if_neg hpar] at hnbrs hmidnbrs
            rcases hmidnbrs with ⟨h1, h2⟩ | ⟨h1, h2⟩
            · exact hnnot (h2 ▸ hnbrs.2)
            · exact hnnot (h1 ▸ hnbrs.1)
        have hsub : floors ⊆ insert n (insert mid floors) := fun x hx =>
          Finset.mem_insert_of_mem (Finset.mem_insert_of_mem hx)
        refine ⟨?_, ?_, ?_, ?_⟩
        · intro x hx
          simp only [List.mem_cons] at hx
          rcases hx with rfl | rfl | hx
          · exact hnodd
          · exact hcodd
          · exact hstack x (List.mem_cons_of_mem c hx)
        · intro x hx
          simp only [List.mem_cons] at hx
          rcases hx with rfl | rfl | hx
          · exact Finset.mem_insert_self _ _
          · exact hsub hcfloor
          · exact hsub (hstackf x (List.mem_cons_of_mem c hx))
        · intro p hp hpnot
          rcases Finset.mem_insert.mp hp with rfl | hp'
          · exact absurd hnodd hpnot
          rcases Finset.mem_insert.mp hp' with rfl | hp''
          · unfold sideNbrsIn
            by_cases hpar : mid.1 % 2 = 1
            · rw [if_pos hpar] at hmidnbrs ⊢
              rcases hmidnbrs with ⟨h1, h2⟩ | ⟨h1, h2⟩
              · exact ⟨by rw [h1]; exact hsub hcfloor,
                  by rw [h2]; exact Finset.mem_insert_self _ _⟩
              · exact ⟨by rw [h1]; exact Finset.mem_insert_self _ _,
                  by rw [h2]; exact hsub hcfloor⟩
            · rw [if_neg hpar] at hmidnbrs ⊢
              rcases hmidnbrs with ⟨h1, h2⟩ | ⟨h1, h2⟩
              · exact ⟨by rw [h1]; exact hsub hcfloor,
                  by rw [h2]; exact Finset.mem_insert_self _ _⟩
              · exact ⟨by rw [h1]; exact Finset.mem_insert_self _ _,
                  by rw [h2]; exact hsub hcfloor⟩
          · exact sideNbrsIn_mono floors _ hsub p (hside p hp'' hpnot)
        · have hroomfilter :
              (insert n (insert mid floors)).filter
                  (fun p => p.1 % 2 = 1 ∧ p.2 % 2 = 1) =
                insert n (floors.filter (fun p => p.1 % 2 = 1 ∧ p.2 % 2 = 1)) := by
            simp only [Finset.filter_insert]
            rw [if_pos hnodd, if_neg hmidnot]
          have hcarvedfilter :
              (insert n (insert mid floors)).filter
                  (fun p => ¬(p.1 % 2 = 1 ∧ p.2 % 2 = 1)) =
                insert mid (floors.filter (fun p => ¬(p.1 % 2 = 1 ∧ p.2 % 2 = 1))) := by
            simp only [Finset.filter_insert]
            rw [if_neg (not_not_intro hnodd), if_pos hmidnot]
          unfold roomCount carvedCount at hcount ⊢
          rw [hroomfilter, hcarvedfilter,
            Finset.card_insert_of_not_mem
              (fun hmem => hnnot (Finset.mem_filter.mp hmem).1),
            Finset.card_insert_of_not_mem
              (fun hmem => hmidfresh (Finset.mem_filter.mp hmem).1)]
          dsimp only at hcount
          omega

/-- C6: for every generated maze, the number of floor cells at room
coordinates (both coordinates odd) equals the number of carved wall cells
(the knocked-down midpoints, i.e. the floor cells at non-room coordinates)
plus one — the spanning-tree counting property. -/
theorem generated_maze_perfect_count (width height : ℤ) (choices : ℕ → ℕ) (m : MazeS)
    (hok : mazeInit width height choices = Except.ok m) :
    roomCount m.floors = carvedCount m.floors + 1 := by
  have hfb := mazeInit_floors_in_box width height choices m hok
  rw [hfb.2.2.2.2.1]
  have hB := genLoopAux_invB m.w m.h (genFuel m.w m.h) choices {(1, 1)} [(1, 1)]
    ⟨by decide, by simp, ?_, by decide⟩
  · exact hB.2.2.2
  · intro p hp hnot
    rw [Finset.mem_singleton] at hp
    subst hp
    exact absurd (by decide) hnot

def mzGen5 : MazeS := ⟨5, 5, (mazeGenRun 5 5 ch0).1⟩

/-- C6 witness: the generated `5 × 5` maze with the constant-zero choice
stream satisfies the counting equation. -/
theorem generated_maze_perfect_count_witness :
    mazeInit 5 5 ch0 = Except.ok mzGen5 ∧
      roomCount mzGen5.floors = carvedCount mzGen5.floors + 1 :=
  ⟨rfl, generated_maze_perfect_count 5 5 ch0 mzGen5 rfl⟩

/-! ### Farthest-cell selection (C7) -/

/-- The `if d > far[2]: far = (x,y,d)` update of the BFS. -/
def farUpd (a e : Cell × ℕ) : Cell × ℕ := if e.2 > a.2 then e else a

/-- Maximum depth occurring in a pop trace. -/
def maxDepth (l : List (Cell × ℕ)) : ℕ := l.foldl (fun acc e => Nat.max acc e.2) 0

theorem bfsAux_far_fold (m : MazeS) (fuel : ℕ) :
    ∀ (st : BfsState) (f0 : Cell × ℕ), st.far = List.foldl farUpd f0 st.trace →
    (bfsAux m fuel st).far = List.foldl farUpd f0 (bfsAux m fuel st).trace := by
  induction fuel with
  | zero => intro st f0 h; exact h
  | succ fuel ih =>
    intro st f0 h
    obtain ⟨queue, seen, far, trace⟩ := st
    cases queue with
    | nil => rw [bfsAux.eq_def]; exact h
    | cons e rest =>
      obtain ⟨p, d⟩ := e
      rw [bfsAux.eq_def]
      dsimp only
      apply ih
      dsimp only
      rw [List.foldl_append, List.foldl_cons, List.foldl_nil]
      dsimp only at h
      rw [← h]
      rfl

theorem bfsAux_trace_ext (m : MazeS) (fuel : ℕ) :
    ∀ st : BfsState, ∃ ext, (bfsAux m fuel st).trace = st.trace ++ ext := by
  induction fuel with
  | zero => intro st; exact ⟨[], (List.append_nil _).symm⟩
  | succ fuel ih =>
    intro st
    obtain ⟨queue, seen, far, trace⟩ := st
    cases queue with
    | nil => rw [bfsAux.eq_def]; exact ⟨[], (List.append_nil _).symm⟩
    | cons e rest =>
      obtain ⟨p, d⟩ := e
      rw [bfsAux.eq_def]
      dsimp only
      obtain ⟨ext, hext⟩ := ih ⟨(bfsExpand m p.1 p.2 d bfsDeltas rest seen).1,
        (bfsExpand m p.1 p.2 d bfsDeltas rest seen).2,
        if d > far.2 then (p, d) else far, trace ++ [(p, d)]⟩
      refine ⟨(p, d) :: ext, ?_⟩
      rw [hext]
      simp

theorem bfsRun_trace_head (m : MazeS) (sx sy : ℤ) :
    ∃ T, (bfsRun m sx sy).trace = ((sx, sy), 0) :: T := by
  unfold bfsRun
  rw [show bfsFuel m = (2 * (m.w.toNat * m.h.toNat) + 1) + 1 from rfl]
  rw [bfsAux.eq_def]
  dsimp only [bfsInit]
  obtain ⟨ext, hext⟩ := bfsAux_trace_ext m (2 * (m.w.toNat * m.h.toNat) + 1)
    ⟨(bfsExpand m sx sy 0 bfsDeltas [] {(sx, sy)}).1,
      (bfsExpand m sx sy 0 bfsDeltas [] {(sx, sy)}).2,
      if 0 > 0 then ((sx, sy), 0) else ((sx, sy), 0), [] ++ [((sx, sy), 0)]⟩
  refine ⟨ext, ?_⟩
  rw [hext]
  simp

theorem foldl_max_le_start (l : List (Cell × ℕ)) :
    ∀ a : ℕ, a ≤ List.foldl (fun acc e => Nat.max acc e.2) a l := by
  induction l with
  | nil => intro a; exact Nat.le.refl
  | cons b t ih =>
    intro a
    rw [List.foldl_cons]
    exact Nat.le_trans (Nat.le_max_left a b.2) (ih _)

theorem mem_le_foldl_max (l : List (Cell × ℕ)) :
    ∀ (a : ℕ), ∀ e ∈ l, e.2 ≤ List.foldl (fun acc e => Nat.max acc e.2) a l := by
  induction l with
  | nil => intro a e he; exact absurd he (List.not_mem_nil e)
  | cons b t ih =>
    intro a e he
    rw [List.foldl_cons]
    rcases List.mem_cons.mp he with rfl | het
    · exact Nat.le_trans (Nat.le_max_right a e.2) (foldl_max_le_start t _)
    · exact ih _ e het

theorem foldl_farUpd_no_update (l : List (Cell × ℕ)) :
    ∀ a : Cell × ℕ, (∀ e ∈ l, e.2 ≤ a.2) → List.foldl farUpd a l = a := by
  induction l with
  | nil => intro a _; rfl
  | cons b t ih =>
    intro a hle
    rw [List.foldl_cons]
    have hb : farUpd a b = a := by
      unfold farUpd
      rw [if_neg (by have := hle b (List.mem_cons_self b t); omega)]
    rw [hb]
    exact ih a fun e he => hle e (List.mem_cons_of_mem b he)

theorem depth_find_cons_pos (M : ℕ) (a : Cell × ℕ) (l : List (Cell × ℕ))
    (h : a.2 = M) :
    List.find? (fun e => e.2 == M) (a :: l) = some a := by
  rw [List.find?_cons]
  have hb : (a.2 == M) = true := by
    rw [beq_iff_eq]
    exact h
  rw [hb]

theorem depth_find_cons_neg (M : ℕ) (a : Cell × ℕ) (l : List (Cell × ℕ))
    (h : a.2 ≠ M) :
    List.find? (fun e => e.2 == M) (a :: l) = List.find? (fun e => e.2 == M) l := by
  rw [List.find?_cons]
  have hb : (a.2 == M) = false := by
    rw [beq_eq_false_iff_ne]
    exact h
  rw [hb]

/-- The strict-update fold of the BFS picks the first element of the trace
whose depth equals the maximum depth. -/
theorem find_first_max_eq_foldl (l : List (Cell × ℕ)) :
    ∀ (a : Cell × ℕ) (M : ℕ),
    M = List.foldl (fun acc e => Nat.max acc e.2) a.2 l →
    (a :: l).find? (fun e => e.2 == M) = some (List.foldl farUpd a l) := by
  induction l with
  | nil =>
    intro a M hM
    rw [List.foldl_nil] at hM
    subst hM
    rw [List.foldl_nil, depth_find_cons_pos a.2 a [] rfl]
  | cons b t ih =>
    intro a M hM
    rw [List.foldl_cons] at hM
    have hfoldstep : List.foldl farUpd a (b :: t) = List.foldl farUpd (farUpd a b) t :=
      List.foldl_cons ..
    by_cases hab : b.2 > a.2
    · have hupd : farUpd a b = b := by unfold farUpd; rw [if_pos hab]
      have hmaxb : Nat.max a.2 b.2 = b.2 := Nat.max_eq_right (by omega)
      have hM' : M = List.foldl (fun acc e => Nat.max acc e.2) b.2 t := by
        rw [hM, hmaxb]
      have hb_le : b.2 ≤ M := by rw [hM']; exact foldl_max_le_start t b.2
      rw [depth_find_cons_neg M a (b :: t) (by omega), hfoldstep, hupd]
      exact ih b M hM'
    · have hupd : farUpd a b = a := by unfold farUpd; rw [if_neg hab]
      have hmaxa : Nat.max a.2 b.2 = a.2 := Nat.max_eq_left (by omega)
      have hM' : M = List.foldl (fun acc e => Nat.max acc e.2) a.2 t := by
        rw [hM, hmaxa]
      have ha_le : a.2 ≤ M := by rw [hM']; exact foldl_max_le_start t a.2
      by_cases haM : a.2 = M
      · rw [depth_find_cons_pos M a (b :: t) haM, hfoldstep, hupd,
          foldl_farUpd_no_update t a
            (fun e he => by
              have := mem_le_foldl_max t a.2 e he
              rw [← hM'] at this
              omega)]
      · have hihr := ih a M hM'
        rw [depth_find_cons_neg M a t haM] at hihr
        rw [depth_find_cons_neg M a (b :: t) haM,
          depth_find_cons_neg M b t (by omega), hfoldstep, hupd]
        exact hihr

theorem bfsExpand_nothing (m : MazeS) (x y : ℤ) (d : ℕ) :
    ∀ (l : List Cell) (q : List (Cell × ℕ)) (seen : Finset Cell),
    (∀ δ ∈ l, ¬(0 ≤ x + δ.1 ∧ x + δ.1 < m.w ∧ 0 ≤ y + δ.2 ∧ y + δ.2 < m.h ∧
      (x + δ.1, y + δ.2) ∈ m.floors)) →
    bfsExpand m x y d l q seen = (q, seen) := by
  intro l
  induction l with
  | nil => intro q seen _; rfl
  | cons δ rest ih =>
    intro q seen hno
    rw [bfsExpand.eq_def]
    dsimp only
    rw [if_neg]
    · exact ih q seen fun δ' hδ' => hno δ' (List.mem_cons_of_mem δ hδ')
    · intro hguard
      exact hno δ (List.mem_cons_self δ rest)
        ⟨hguard.1, hguard.2.1, hguard.2.2.1, hguard.2.2.2.1, hguard.2.2.2.2.2⟩

theorem bfsAux_of_empty_queue (m : MazeS) (fuel : ℕ) (st : BfsState)
    (h : st.queue = []) : bfsAux m fuel st = st := by
  cases fuel with
  | zero => rfl
  | succ fuel =>
    rw [bfsAux.eq_def]
    dsimp only
    rw [h]

/-- C7: `place_treasure_farthest_from` is the BFS (neighbour expansion in
the fixed source order `(+x, -x, +y, -y)` of `bfsDeltas`) that returns the
first cell popped at the maximum depth: the returned `far` entry is the
first element of the pop trace whose depth equals the maximum trace depth
(ties broken by visitation order).  Being a pure function of `(maze,
start)`, it is deterministic.  For an isolated start cell (no in-bounds
floor neighbour) it returns the start itself. -/
theorem place_treasure_first_max (m : MazeS) (sx sy : ℤ) :
    ((bfsRun m sx sy).trace).find?
        (fun e => e.2 == maxDepth ((bfsRun m sx sy).trace)) =
      some ((bfsRun m sx sy).far) ∧
    place_treasure_farthest_from m sx sy = (bfsRun m sx sy).far.1 ∧
    ((∀ δ ∈ bfsDeltas,
        ¬(0 ≤ sx + δ.1 ∧ sx + δ.1 < m.w ∧ 0 ≤ sy + δ.2 ∧ sy + δ.2 < m.h ∧
          (sx + δ.1, sy + δ.2) ∈ m.floors)) →
      place_treasure_farthest_from m sx sy = (sx, sy)) := by
  refine ⟨?_, rfl, ?_⟩
  · obtain ⟨T, hT⟩ := bfsRun_trace_head m sx sy
    have hfar : (bfsRun m sx sy).far =
        List.foldl farUpd ((sx, sy), 0) (bfsRun m sx sy).trace :=
      bfsAux_far_fold m (bfsFuel m) (bfsInit sx sy) ((sx, sy), 0) rfl
    rw [hT] at hfar ⊢
    rw [List.foldl_cons] at hfar
    have hself : farUpd ((sx, sy), 0) ((sx, sy), 0) = ((sx, sy), 0) := by
      unfold farUpd
      rw [if_neg (by omega)]
    rw [hself] at hfar
    have hM : maxDepth ((((sx, sy), 0) : Cell × ℕ) :: T) =
        List.foldl (fun acc e => Nat.max acc e.2) ((((sx, sy), 0) : Cell × ℕ)).2 T := rfl
    rw [hfar]
    exact find_first_max_eq_foldl T ((sx, sy), 0) _ hM
  · intro hiso
    unfold place_treasure_farthest_from bfsRun
    rw [show bfsFuel m = (2 * (m.w.toNat * m.h.toNat) + 1) + 1 from rfl]
    rw [bfsAux.eq_def]
    dsimp only [bfsInit]
    rw [bfsExpand_nothing m sx sy 0 bfsDeltas [] {(sx, sy)} hiso]
    rw [bfsAux_of_empty_queue m _ _ rfl]
    simp

/-- C7 witness: in the trivial maze whose only floor cell is the start, the
farthest cell is the start itself. -/
theorem place_treasure_first_max_witness :
    place_treasure_farthest_from mzTrivial 1 1 = (1, 1) :=
  (place_treasure_first_max mzTrivial 1 1).2.2 (by decide)
